import Mathlib

/-!
# FileExplorer: a verification development for `src/main.cpp`

The C++ class `FileExplorer` is embedded shallowly:

* `std::string` is a list of characters (`Str`);
* the system calls the class uses (`stat`, `opendir`/`readdir`, `chmod`, the
  file streams) are explicit parameters or explicit state, so that every
  theorem holds for whatever the operating system answers;
* the one mutable field, `currentPath`, is passed in and returned.
-/

namespace FileExplorer

/-- A `std::string`. -/
abbrev Str := List Char

/-! ## POSIX constants of `<sys/stat.h>` -/

def S_IFMT : Nat := 0o170000
def S_IFDIR : Nat := 0o040000
def S_IFREG : Nat := 0o100000
def S_IRUSR : Nat := 0o400
def S_IWUSR : Nat := 0o200
def S_IXUSR : Nat := 0o100
def S_IRGRP : Nat := 0o040
def S_IWGRP : Nat := 0o020
def S_IXGRP : Nat := 0o010
def S_IROTH : Nat := 0o004
def S_IWOTH : Nat := 0o002
def S_IXOTH : Nat := 0o001

/-- The macro `S_ISDIR(mode)`. -/
def S_ISDIR (mode : Nat) : Bool := mode &&& S_IFMT == S_IFDIR

/-- The macro `S_ISREG(mode)`. -/
def S_ISREG (mode : Nat) : Bool := mode &&& S_IFMT == S_IFREG

/-! ## `std::string` operations used by the class -/

/-- The call `s.find_last_of(c)`: the greatest index at which `c` occurs, `none` for `npos`. -/
def find_last_of : Str → Char → Option Nat
  | [], _ => none
  | x :: xs, c =>
    match find_last_of xs c with
    | some i => some (i + 1)
    | none => if x = c then some 0 else none

/-- The call `s.substr(pos, len)`. -/
def substr (s : Str) (pos len : Nat) : Str := (s.drop pos).take len

/-- The expression `s[0]`, which is the terminating NUL of an empty string. -/
def front (s : Str) : Char := s.headD (Char.ofNat 0)

/-! ## `changeDirectory` (main.cpp 223-250) -/

/-- The local `newPath` of `changeDirectory`, lines 224-240. -/
def newPath (currentPath path : Str) : Str :=
  if path = "..".toList then
    match find_last_of currentPath '/' with
    | some pos => if pos ≠ 0 then substr currentPath 0 pos else "/".toList
    | none => "/".toList
  else if front path = '/' then
    path
  else
    currentPath ++ "/".toList ++ path

/-- The method `changeDirectory`: `stat` is the system call, answering `st_mode` when it
returns 0; the result is the returned flag and the value of `currentPath` afterwards. -/
def changeDirectory (stat : Str → Option Nat) (currentPath path : Str) : Bool × Str :=
  match stat (newPath currentPath path) with
  | some st_mode =>
    if S_ISDIR st_mode then (true, newPath currentPath path) else (false, currentPath)
  | none => (false, currentPath)

/-! ## Paths as segment lists (specification side) -/

/-- The absolute path with the given segments: `/` for none, `/a/b` for `a`, `b`. -/
def pathOf (segs : List Str) : Str :=
  if segs = [] then "/".toList else segs.flatMap (fun s => '/' :: s)

/-- A segment of a normalized path: non-empty, without `/`, neither `.` nor `..`. -/
def ValidSegment (s : Str) : Prop :=
  s ≠ [] ∧ '/' ∉ s ∧ s ≠ ".".toList ∧ s ≠ "..".toList

/-- An absolute, normalized path without trailing slash (or the root `/`). -/
def Normalized (p : Str) : Prop :=
  ∃ segs : List Str, (∀ s ∈ segs, ValidSegment s) ∧ p = pathOf segs

/-- An absolute path: it begins with `/`. -/
def Absolute (p : Str) : Prop := ∃ rest, p = '/' :: rest

/-- Whether `stat(path) == 0 && S_ISDIR(st_mode)` holds: the path exists and is a directory. -/
def isDirectory (stat : Str → Option Nat) (path : Str) : Bool :=
  match stat path with
  | some st_mode => S_ISDIR st_mode
  | none => false

/-! ## `getPermissions` (main.cpp 49-61) -/

/-- The method `getPermissions`: nine appends, one per permission bit. -/
def getPermissions (mode : Nat) : Str :=
  let perms : Str := []
  let perms := perms ++ (if mode &&& S_IRUSR ≠ 0 then "r".toList else "-".toList)
  let perms := perms ++ (if mode &&& S_IWUSR ≠ 0 then "w".toList else "-".toList)
  let perms := perms ++ (if mode &&& S_IXUSR ≠ 0 then "x".toList else "-".toList)
  let perms := perms ++ (if mode &&& S_IRGRP ≠ 0 then "r".toList else "-".toList)
  let perms := perms ++ (if mode &&& S_IWGRP ≠ 0 then "w".toList else "-".toList)
  let perms := perms ++ (if mode &&& S_IXGRP ≠ 0 then "x".toList else "-".toList)
  let perms := perms ++ (if mode &&& S_IROTH ≠ 0 then "r".toList else "-".toList)
  let perms := perms ++ (if mode &&& S_IWOTH ≠ 0 then "w".toList else "-".toList)
  let perms := perms ++ (if mode &&& S_IXOTH ≠ 0 then "x".toList else "-".toList)
  perms

/-! ## `formatSize` (main.cpp 64-77)

The local `fsize` is a `double`.  Every value it takes is an integer of at most 53
significant bits divided by a power of two, so it is kept exactly, as a numerator and a
binary exponent: the conversion from `off_t` rounds to 53 significant bits (`toDouble`),
the comparison with 1024 and the division by 1024 are exact, and the stream prints the
exact value rounded to two decimals, ties to even (`fixed2`). -/

/-- The value `num / 2 ^ exp` of a `double`. -/
structure Dyadic where
  num : Nat
  exp : Nat
deriving DecidableEq, Repr

/-- How many bits `n` has beyond 53 (for `n` below `2 ^ (53 + fuel)`). -/
def excessBits : Nat → Nat → Nat
  | 0, _ => 0
  | fuel + 1, n => if n < 2 ^ 53 then 0 else excessBits fuel (n / 2) + 1

/-- The conversion `double fsize = size` of a non-negative `off_t` (below `2 ^ 63`):
round to nearest, ties to even, at 53 significant bits.  The result is an integer. -/
def toDouble (size : Nat) : Nat :=
  let e := excessBits 11 size
  let q := size / 2 ^ e
  let r := size % 2 ^ e
  let up : Bool := 2 ^ e < 2 * r || (2 * r == 2 ^ e && q % 2 == 1)
  (if up then q + 1 else q) * 2 ^ e

/-- The test `fsize >= 1024`. -/
def ge1024 (fsize : Dyadic) : Bool := decide (1024 * 2 ^ fsize.exp ≤ fsize.num)

/-- The assignment `fsize /= 1024`. -/
def div1024 (fsize : Dyadic) : Dyadic := ⟨fsize.num, fsize.exp + 10⟩

/-- The loop `while (fsize >= 1024 && unitIndex < 4)`, run for at most `fuel` rounds. -/
def sizeLoop : Nat → Dyadic → Nat → Dyadic × Nat
  | 0, fsize, unitIndex => (fsize, unitIndex)
  | fuel + 1, fsize, unitIndex =>
    if ge1024 fsize && decide (unitIndex < 4) then
      sizeLoop fuel (div1024 fsize) (unitIndex + 1)
    else (fsize, unitIndex)

/-- The output of `ss << fixed << setprecision(2) << fsize`: the exact value rounded to a
whole number of hundredths (ties to even), integer part, a point, two digits. -/
def fixed2 (fsize : Dyadic) : Str :=
  let d := 2 ^ fsize.exp
  let q := 100 * fsize.num / d
  let r := 100 * fsize.num % d
  let up : Bool := d < 2 * r || (2 * r == d && q % 2 == 1)
  let h := if up then q + 1 else q
  Nat.toDigits 10 (h / 100) ++ '.' :: Nat.digitChar (h / 10 % 10) :: [Nat.digitChar (h % 10)]

/-- The array `units` of `formatSize`. -/
def units : List Str := ["B".toList, "KB".toList, "MB".toList, "GB".toList, "TB".toList]

/-- The method `formatSize` on a non-negative size.  Four rounds of the loop are all it
can make, as `unitIndex` then is 4 (`sizeLoop_fuel`). -/
def formatSize (size : Nat) : Str :=
  let r := sizeLoop 4 ⟨toDouble size, 0⟩ 0
  fixed2 r.1 ++ " ".toList ++ units.getD r.2 []

/-- The number of divisions by 1024 the specification prescribes for the value `n`:
one for each of the first four powers of 1024 that `n` reaches. -/
def divisions (n : Nat) : Nat :=
  if n < 1024 then 0 else if n < 1024 ^ 2 then 1 else if n < 1024 ^ 3 then 2
  else if n < 1024 ^ 4 then 3 else 4

/-- The specification of `formatSize`: the value `n / 1024 ^ k` itself, with two
fractional digits, a space and the `k`-th unit, `k` being `divisions n`. -/
def humanSize (n : Nat) : Str :=
  fixed2 ⟨n, 10 * divisions n⟩ ++ " ".toList ++ units.getD (divisions n) []

/-! ## `searchRecursive` (main.cpp 92-115)

A finite directory tree: what `opendir`, `readdir` and `stat` answer below a path. -/

mutual
/-- What a directory entry leads to. -/
inductive Node where
  /-- Not a directory for `stat` (or `stat` fails). -/
  | other : Node
  /-- A directory for `stat` that `opendir` cannot open. -/
  | closed : Node
  /-- A directory, with the entries `readdir` enumerates, in that order. -/
  | dir (entries : Entries) : Node
/-- The entries of a directory, in enumeration order, `.` and `..` included. -/
inductive Entries where
  | nil : Entries
  | cons (name : Str) (node : Node) (rest : Entries) : Entries
end

/-- Whether `stat(fullPath, &statbuf) == 0 && S_ISDIR(statbuf.st_mode)` for a path that
leads to this node. -/
def Node.statIsDir : Node → Bool
  | .other => false
  | .closed => true
  | .dir _ => true

/-- The call `s.find(pattern)`: the least index at which `pattern` occurs in `s`, `none`
for `npos`. -/
def find : Str → Str → Option Nat
  | [], pattern => if pattern.isPrefixOf [] then some 0 else none
  | c :: s, pattern =>
    if pattern.isPrefixOf (c :: s) then some 0 else (find s pattern).map (· + 1)

mutual
/-- The method `searchRecursive` called on a path that leads to the given node; the
vector `results` is passed in and returned. -/
def searchRecursive : Node → Str → Str → List Str → List Str
  | .dir entries, path, pattern, results => searchEntries entries path pattern results
  | .closed, _, _, results => results
  | .other, _, _, results => results
/-- The `readdir` loop of `searchRecursive` over the entries not yet read. -/
def searchEntries : Entries → Str → Str → List Str → List Str
  | .nil, _, _, results => results
  | .cons name node rest, path, pattern, results =>
    if name = ".".toList ∨ name = "..".toList then
      searchEntries rest path pattern results
    else
      let fullPath := path ++ "/".toList ++ name
      let results := if find name pattern ≠ none then results ++ [fullPath] else results
      let results :=
        if node.statIsDir then searchRecursive node fullPath pattern results else results
      searchEntries rest path pattern results
end

mutual
/-- The descendants below a node, depth first, a directory before its content and its
content before its next sibling: name and full path of each. -/
def Node.descendants : Node → Str → List (Str × Str)
  | .dir entries, path => entries.descendants path
  | .closed, _ => []
  | .other, _ => []
/-- The descendants reached through the given entries of the directory `path`. -/
def Entries.descendants : Entries → Str → List (Str × Str)
  | .nil, _ => []
  | .cons name node rest, path =>
    if name = ".".toList ∨ name = "..".toList then
      rest.descendants path
    else
      (name, path ++ "/".toList ++ name)
        :: (node.descendants (path ++ "/".toList ++ name) ++ rest.descendants path)
end

/-- The full paths of those descendants whose name contains the pattern as a contiguous
part, in the order of the list. -/
def matching (pattern : Str) (ds : List (Str × Str)) : List Str :=
  (ds.filter (fun d => decide (pattern <:+: d.1))).map (fun d => d.2)

/-! ## The file system seen by `copy` and `changePermissions`

Each path names at most one file.  The process owns the files, so the access checks are
those of the owner bits; creating a file succeeds and gives it mode 0644. -/

/-- A file: its `st_mode` and its bytes. -/
structure File where
  st_mode : Nat
  content : List Nat
deriving DecidableEq, Repr

/-- The file system: what each path names. -/
abbrev FileSystem := Str → Option File

/-- The file system with `file` at `path`. -/
def FileSystem.set (fs : FileSystem) (path : Str) (file : File) : FileSystem :=
  fun p => if p = path then some file else fs p

/-- The system call `stat`: the `st_mode` when it returns 0. -/
def FileSystem.stat (fs : FileSystem) (path : Str) : Option Nat :=
  (fs path).map (fun f => f.st_mode)

/-- The declaration `ifstream source(src, ios::binary)`: whether the stream is good.
Nothing is read yet. -/
def openRead (fs : FileSystem) (path : Str) : Bool :=
  match fs path with
  | some f => f.st_mode &&& S_IRUSR != 0
  | none => false

/-- The declaration `ofstream destination(dest, ios::binary)`: whether the stream is
good, and the file system afterwards.  An existing regular file is truncated, a missing
one is created empty. -/
def openWrite (fs : FileSystem) (path : Str) : Bool × FileSystem :=
  match fs path with
  | some f =>
    if S_ISREG f.st_mode && f.st_mode &&& S_IWUSR != 0 then
      (true, fs.set path { f with content := [] })
    else (false, fs)
  | none => (true, fs.set path ⟨S_IFREG ||| 0o644, []⟩)

/-- The statement `destination << source.rdbuf()`: what the source holds when it is read
is appended to the destination. -/
def streamCopy (fs : FileSystem) (src dest : Str) : FileSystem :=
  match fs src, fs dest with
  | some s, some d => fs.set dest { d with content := d.content ++ s.content }
  | _, _ => fs

/-- The system call `chmod`: whether it returns 0, and the file system afterwards.  The
file type is kept and the twelve mode bits are replaced. -/
def chmod (path : Str) (mode : Nat) (fs : FileSystem) : Bool × FileSystem :=
  match fs path with
  | some f => (true, fs.set path { f with st_mode := (f.st_mode &&& S_IFMT) ||| (mode &&& 0o7777) })
  | none => (false, fs)

/-! ## `copyFile` (main.cpp 118-135) and `copy` (main.cpp 307-329) -/

/-- The method `copyFile`: the returned flag and the file system afterwards. -/
def copyFile (fs : FileSystem) (src dest : Str) : Bool × FileSystem :=
  let source := openRead fs src
  let destination := openWrite fs dest
  if !source || !destination.1 then
    (false, destination.2)
  else
    let fs := streamCopy destination.2 src dest
    match fs.stat src with
    | some st_mode => (true, (chmod dest st_mode fs).2)
    | none => (true, fs)

/-- The method `copy`: the returned flag and the file system afterwards. -/
def copy (fs : FileSystem) (currentPath src dest : Str) : Bool × FileSystem :=
  let srcPath := currentPath ++ "/".toList ++ src
  let destPath := currentPath ++ "/".toList ++ dest
  match fs.stat srcPath with
  | none => (false, fs)
  | some st_mode =>
    if !S_ISREG st_mode then (false, fs)
    else
      let r := copyFile fs srcPath destPath
      if r.1 then (true, r.2) else (false, r.2)

/-! ## `changePermissions` (main.cpp 362-381) -/

/-- The call `s.c_str()` as `strtol` reads it: the characters before the first NUL. -/
def c_str (s : Str) : Str := s.takeWhile (fun c => c != Char.ofNat 0)

/-- The function `isspace` of the C locale. -/
def isspace (c : Char) : Bool := c == ' ' || (9 ≤ c.toNat && c.toNat ≤ 13)

/-- The value of a character as a digit for `strtol`. -/
def digitValue (c : Char) : Option Nat :=
  if 48 ≤ c.toNat ∧ c.toNat ≤ 57 then some (c.toNat - 48)
  else if 97 ≤ c.toNat ∧ c.toNat ≤ 122 then some (c.toNat - 87)
  else if 65 ≤ c.toNat ∧ c.toNat ≤ 90 then some (c.toNat - 55)
  else none

/-- Whether a character is a digit of the given base. -/
def isDigitOf (base : Nat) (c : Char) : Bool :=
  match digitValue c with
  | some d => decide (d < base)
  | none => false

def LONG_MAX : Int := 2 ^ 63 - 1
def LONG_MIN : Int := -(2 ^ 63)

/-- The C function `strtol(nptr, nullptr, base)` for a base from 2 to 36 other than 16
(which would take a `0x` prefix): white space, an optional sign, then the longest run of
digits of the base; 0 when there is no digit; clamped to the range of `long`. -/
def strtol (nptr : Str) (base : Nat) : Int :=
  let s := nptr.dropWhile isspace
  let negative : Bool := s.head? == some '-'
  let s := match s with
    | '-' :: t => t
    | '+' :: t => t
    | _ => s
  let digits := s.takeWhile (isDigitOf base)
  let value : Nat := digits.foldl (fun acc c => acc * base + (digitValue c).getD 0) 0
  if negative then
    if -(value : Int) < LONG_MIN then LONG_MIN else -(value : Int)
  else
    if LONG_MAX < (value : Int) then LONG_MAX else (value : Int)

/-- The conversion of a `long` to `mode_t`, an unsigned integer of 32 bits. -/
def mode_t (v : Int) : Nat := (v % 2 ^ 32).toNat

/-- The method `changePermissions`, over any system state `σ` and any `chmod` primitive
on it (the flag tells whether `chmod` returned 0): the returned flag and the state
afterwards. -/
def changePermissions {σ : Type} (chmod : Str → Nat → σ → Bool × σ)
    (currentPath name perms : Str) (sys : σ) : Bool × σ :=
  let fullPath := currentPath ++ "/".toList ++ name
  if perms.length = 3 then
    let mode := mode_t (strtol (c_str perms) 8)
    let r := chmod fullPath mode sys
    if r.1 then (true, r.2) else (false, r.2)
  else
    (false, sys)

/-- A `chmod` primitive that succeeds and records each call it receives. -/
def recordChmod (path : Str) (mode : Nat) (calls : List (Str × Nat)) :
    Bool × List (Str × Nat) :=
  (true, calls ++ [(path, mode)])

/-- A file system with the one regular file `/d/a`, of mode 0644, holding two bytes. -/
def sampleFiles : FileSystem :=
  fun p => if p = "/d/a".toList then some ⟨S_IFREG ||| 0o644, [104, 105]⟩ else none

/-! ## `stat` and `opendir` on a directory tree

Path resolution without symbolic links: empty components are skipped, `.` stays, `..`
goes up (and stays at the root), and every component needs a directory to start from. -/

/-- The entry called `name`, if there is one. -/
def Entries.lookup : Entries → Str → Option Node
  | .nil, _ => none
  | .cons n node rest, name => if n = name then some node else rest.lookup name

/-- The names `readdir` enumerates. -/
def Entries.names : Entries → List Str
  | .nil => []
  | .cons n _ rest => n :: rest.names

/-- The components of a path: the pieces between slashes, the empty ones dropped. -/
def components (path : Str) : List Str := (path.splitOn '/').filter (fun c => c ≠ [])

/-- Follows the components from the directory `cur`, whose ancestors are `above`
(nearest first). -/
def walk : List Str → Node → List Node → Option Node
  | [], cur, _ => some cur
  | comp :: rest, cur, above =>
    match cur with
    | .dir entries =>
      if comp = ".".toList then walk rest cur above
      else if comp = "..".toList then
        match above with
        | [] => walk rest cur []
        | parent :: above => walk rest parent above
      else
        match entries.lookup comp with
        | some node => walk rest node (cur :: above)
        | none => none
    | .closed => none
    | .other => none

/-- The system call `stat` on the tree below `root`, for an absolute path: mode 0755 for
a directory, 0644 for anything else. -/
def treeStat (root : Node) (path : Str) : Option Nat :=
  if front path = '/' then
    match walk (components path) root [] with
    | some .other => some (S_IFREG ||| 0o644)
    | some .closed => some (S_IFDIR ||| 0o755)
    | some (.dir _) => some (S_IFDIR ||| 0o755)
    | none => none
  else none

/-- The calls `opendir` and `readdir` on the tree below `root`: the names of the entries,
or `none` when the directory cannot be opened. -/
def treeOpendir (root : Node) (path : Str) : Option (List Str) :=
  if front path = '/' then
    match walk (components path) root [] with
    | some (.dir entries) => some entries.names
    | _ => none
  else none

/-- A small tree: `/usr` holds the directory `bin` and the file `readme`. -/
def sampleTree : Node :=
  .dir (.cons ".".toList .other (.cons "..".toList .other
    (.cons "usr".toList
      (.dir (.cons ".".toList .other (.cons "..".toList .other
        (.cons "readme".toList .other
          (.cons "bin".toList (.dir (.cons ".".toList .other (.cons "..".toList .other .nil)))
            .nil)))))
      .nil)))

/-! ## A session of `changeDirectory` calls -/

/-- The value of `currentPath` after the given calls of `changeDirectory`, each with the
answers `stat` gives at that time and its token. -/
def session (calls : List ((Str → Option Nat) × Str)) (currentPath : Str) : Str :=
  calls.foldl (fun cur call => (changeDirectory call.1 cur call.2).2) currentPath

/-! ## `listFiles` (main.cpp 148-220), not detailed -/

/-- The call `sort(v.begin(), v.end())` on strings: the vector in lexicographic order. -/
def sort (v : List Str) : List Str := v.insertionSort (fun a b => a ≤ b)

/-- The `readdir` loop of `listFiles(false)` over the names not yet read, with the vectors
`files` and `dirs` collected so far. -/
def listLoop (stat : Str → Option Nat) (currentPath : Str) :
    List Str → List Str × List Str → List Str × List Str
  | [], acc => acc
  | name :: rest, (files, dirs) =>
    if name = ".".toList then listLoop stat currentPath rest (files, dirs)
    else
      let fullPath := currentPath ++ "/".toList ++ name
      match stat fullPath with
      | some st_mode =>
        if S_ISDIR st_mode then listLoop stat currentPath rest (files, dirs ++ [name])
        else listLoop stat currentPath rest (files ++ [name], dirs)
      | none => listLoop stat currentPath rest (files, dirs)

/-- The method `listFiles(false)`: `none` when `opendir` fails, otherwise the two groups
it prints, the sorted directories first and the sorted other names second. -/
def listFiles (opendir : Str → Option (List Str)) (stat : Str → Option Nat)
    (currentPath : Str) : Option (List Str × List Str) :=
  match opendir currentPath with
  | none => none
  | some entries =>
    let r := listLoop stat currentPath entries ([], [])
    some (sort r.2, sort r.1)

/-- Whether `listFiles(false)` collects the entry `name` among the directories: it is not
`.`, and `stat` succeeds on its full path and reports a directory. -/
def listedAsDir (stat : Str → Option Nat) (currentPath name : Str) : Bool :=
  name ≠ ".".toList && isDirectory stat (currentPath ++ "/".toList ++ name)

/-- Whether `listFiles(false)` collects the entry `name` among the other names: it is not
`.`, and `stat` succeeds on its full path and does not report a directory. -/
def listedAsFile (stat : Str → Option Nat) (currentPath name : Str) : Bool :=
  name ≠ ".".toList && (stat (currentPath ++ "/".toList ++ name)).isSome
    && !isDirectory stat (currentPath ++ "/".toList ++ name)

/-! ## Octal triplets (specification side) -/

/-- The character of the octal digit `d`: `0` for 0 up to `7` for 7. -/
def octalDigit (d : Nat) : Char := Char.ofNat (48 + d)

/-- The permission string `abc` of three octal digits. -/
def octalTriplet (a b c : Nat) : Str := [octalDigit a, octalDigit b, octalDigit c]

/-- The three-character rendering of an octal digit: `r` if it has the bit of value 4,
`w` if it has the bit of value 2, `x` if it has the bit of value 1, and `-` otherwise. -/
def rwx (d : Nat) : Str :=
  [if d &&& 4 ≠ 0 then 'r' else '-', if d &&& 2 ≠ 0 then 'w' else '-',
   if d &&& 1 ≠ 0 then 'x' else '-']

/-! ## Lemmas on the string operations -/

theorem find_last_of_not_mem (s : Str) (c : Char) (h : c ∉ s) : find_last_of s c = none := by
  induction s with
  | nil => rfl
  | cons x xs ih =>
    have hx : x ≠ c := fun e => h (by simp [e])
    have hxs : c ∉ xs := fun e => h (by simp [e])
    simp [find_last_of, ih hxs, hx]

theorem find_last_of_append (a b : Str) (c : Char) (h : c ∉ b) :
    find_last_of (a ++ c :: b) c = some a.length := by
  induction a with
  | nil => simp [find_last_of, find_last_of_not_mem b c h]
  | cons x xs ih => simp [find_last_of, ih]

theorem substr_zero_append (a b : Str) : substr (a ++ b) 0 a.length = a := by
  simp [substr]

theorem flatMap_concat (init : List Str) (last : Str) :
    (init ++ [last]).flatMap (fun s => '/' :: s)
      = init.flatMap (fun s => '/' :: s) ++ '/' :: last := by
  simp [List.flatMap_append]

theorem flatMap_length_pos (segs : List Str) (h : segs ≠ []) :
    (segs.flatMap (fun s => '/' :: s)).length ≠ 0 := by
  cases segs with
  | nil => exact absurd rfl h
  | cons s rest => simp [List.flatMap_cons]

/-- The parent computation on a path given by its segments. -/
theorem newPath_dotdot_pathOf (segs : List Str) (h : ∀ s ∈ segs, '/' ∉ s) :
    newPath (pathOf segs) "..".toList = pathOf segs.dropLast := by
  rcases List.eq_nil_or_concat segs with rfl | ⟨init, last, rfl⟩
  · decide
  · rw [List.concat_eq_append] at h ⊢
    have hlast : '/' ∉ last := h last (by simp)
    have hne : init ++ [last] ≠ [] := by simp
    rw [List.dropLast_concat]
    have hp : pathOf (init ++ [last]) = init.flatMap (fun s => '/' :: s) ++ '/' :: last := by
      rw [pathOf, if_neg hne, flatMap_concat]
    rw [hp]
    have hf := find_last_of_append (init.flatMap (fun s => '/' :: s)) last '/' hlast
    unfold newPath
    rw [if_pos rfl, hf]
    by_cases hi : init = []
    · subst hi
      simp [pathOf]
    · have hpos := flatMap_length_pos init hi
      simp only [hpos, ne_eq, not_false_eq_true, if_true]
      rw [substr_zero_append, pathOf, if_neg hi]

theorem pathOf_dropLast_prefix (segs : List Str) :
    pathOf segs.dropLast <+: pathOf segs := by
  rcases List.eq_nil_or_concat segs with rfl | ⟨init, last, rfl⟩
  · exact List.prefix_refl _
  · rw [List.concat_eq_append]
    have hne : init ++ [last] ≠ [] := by simp
    rw [List.dropLast_concat]
    by_cases hi : init = []
    · subst hi
      simp [pathOf]
    · rw [pathOf, if_neg hi, pathOf, if_neg hne, flatMap_concat]
      exact List.prefix_append _ _

/-! ## Claims on `changeDirectory` -/

/-- C1: for a current path made of the segments `segs` (non-empty, without `/`), the path
`changeDirectory` computes for the token `..` is the path of `segs` without its last segment,
which is a prefix of the current path; it is `/` when there is at most one segment, and
from `/` the current directory stays `/` whatever `stat` answers. -/
theorem C1_parent_of_valid_path (segs : List Str) (h : ∀ s ∈ segs, ValidSegment s) :
    newPath (pathOf segs) "..".toList = pathOf segs.dropLast
    ∧ pathOf segs.dropLast <+: pathOf segs
    ∧ (segs.length ≤ 1 → newPath (pathOf segs) "..".toList = "/".toList)
    ∧ newPath "/".toList "..".toList = "/".toList
    ∧ ∀ stat, (changeDirectory stat "/".toList "..".toList).2 = "/".toList := by
  have hs : ∀ s ∈ segs, '/' ∉ s := fun s hs => (h s hs).2.1
  have h1 := newPath_dotdot_pathOf segs hs
  refine ⟨h1, pathOf_dropLast_prefix segs, ?_, by decide, ?_⟩
  · intro hl
    rw [h1]
    match segs, hl with
    | [], _ => rfl
    | [s], _ => rfl
  · intro stat
    have e : newPath "/".toList "..".toList = "/".toList := by decide
    unfold changeDirectory
    rw [e]
    cases stat "/".toList with
    | none => rfl
    | some m => by_cases hm : S_ISDIR m = true <;> simp [hm]

/-- Witness of C1 at `/home/user`. -/
theorem C1_parent_of_valid_path_witness :
    newPath (pathOf ["home".toList, "user".toList]) "..".toList = "/home".toList
    ∧ newPath "/".toList "..".toList = "/".toList :=
  ⟨(C1_parent_of_valid_path ["home".toList, "user".toList] (by
      intro s hs
      simp only [List.mem_cons, List.mem_singleton, List.not_mem_nil, or_false] at hs
      rcases hs with rfl | rfl <;> (unfold ValidSegment; decide))).1,
   (C1_parent_of_valid_path ["home".toList, "user".toList] (by
      intro s hs
      simp only [List.mem_cons, List.mem_singleton, List.not_mem_nil, or_false] at hs
      rcases hs with rfl | rfl <;> (unfold ValidSegment; decide))).2.2.2.1⟩

/-- Every string has no slash, or is cut at its last slash: what follows it has none. -/
theorem split_at_last_slash (s : Str) :
    '/' ∉ s ∨ ∃ a b, s = a ++ '/' :: b ∧ '/' ∉ b := by
  induction s with
  | nil => exact Or.inl (by simp)
  | cons x xs ih =>
    rcases ih with h | ⟨a, b, rfl, hb⟩
    · by_cases hx : x = '/'
      · exact Or.inr ⟨[], xs, by rw [hx]; rfl, h⟩
      · left
        intro hm
        rcases List.mem_cons.mp hm with e | e
        · exact hx e.symm
        · exact h e
    · exact Or.inr ⟨x :: a, b, rfl, hb⟩

/-- The path resolved for `..` when the current path is cut at its last slash: what
stands before that slash, or `/` when nothing does. -/
theorem newPath_dotdot_split (a b : Str) (hb : '/' ∉ b) :
    newPath (a ++ '/' :: b) "..".toList = if a = [] then "/".toList else a := by
  unfold newPath
  rw [if_pos rfl, find_last_of_append a b '/' hb]
  by_cases ha : a = []
  · subst ha
    simp
  · have hlen : a.length ≠ 0 := fun e => ha (List.length_eq_zero.mp e)
    simp only [hlen, ne_eq, not_false_eq_true, if_true, ha, if_false]
    exact substr_zero_append a ('/' :: b)

/-- The path resolved for `..` when the current path has no slash at all. -/
theorem newPath_dotdot_no_slash (cur : Str) (h : '/' ∉ cur) :
    newPath cur "..".toList = "/".toList := by
  unfold newPath
  rw [if_pos rfl, find_last_of_not_mem cur '/' h]

/-- C2: `changeDirectory` returns true and stores the resolved path exactly when `stat`
succeeds on the resolved path and reports a directory, and otherwise returns false and
leaves `currentPath` as it was; the resolved path is the token itself when the token
starts with `/`, and `currentPath + "/" + token` for any other token than `..`; for the
token `..` it is the textual parent of `currentPath`, whatever `currentPath` is: what
stands before its last slash (the last `/`-delimited segment is stripped), and `/` when
nothing stands before it or `currentPath` has no slash. -/
theorem C2_changeDirectory_commits_iff_directory (stat : Str → Option Nat)
    (currentPath path : Str) (hne : path ≠ []) :
    (isDirectory stat (newPath currentPath path) = true →
        changeDirectory stat currentPath path = (true, newPath currentPath path))
    ∧ (isDirectory stat (newPath currentPath path) = false →
        changeDirectory stat currentPath path = (false, currentPath))
    ∧ (path ≠ "..".toList → (∃ rest, path = '/' :: rest) → newPath currentPath path = path)
    ∧ (path ≠ "..".toList → (¬ ∃ rest, path = '/' :: rest) →
        newPath currentPath path = currentPath ++ "/".toList ++ path)
    ∧ (∀ a b, currentPath = a ++ '/' :: b → '/' ∉ b →
        newPath currentPath "..".toList = if a = [] then "/".toList else a)
    ∧ ('/' ∉ currentPath → newPath currentPath "..".toList = "/".toList)
    ∧ ('/' ∉ currentPath ∨ ∃ a b, currentPath = a ++ '/' :: b ∧ '/' ∉ b) := by
  refine ⟨?_, ?_, ?_, ?_, ?_, newPath_dotdot_no_slash currentPath,
    split_at_last_slash currentPath⟩
  · intro h
    unfold isDirectory at h
    unfold changeDirectory
    cases hs : stat (newPath currentPath path) with
    | none => rw [hs] at h; simp at h
    | some m => rw [hs] at h; simp only at h; simp [h]
  · intro h
    unfold isDirectory at h
    unfold changeDirectory
    cases hs : stat (newPath currentPath path) with
    | none => rfl
    | some m => rw [hs] at h; simp only at h; simp [h]
  · rintro h1 ⟨rest, rfl⟩
    unfold newPath
    rw [if_neg h1]
    simp [front]
  · intro h1 h2
    unfold newPath
    rw [if_neg h1]
    cases path with
    | nil => exact absurd rfl hne
    | cons c rest =>
      have hc : c ≠ '/' := fun e => h2 ⟨rest, by rw [e]⟩
      simp [front, hc]
  · intro a b hcur hb
    rw [hcur]
    exact newPath_dotdot_split a b hb

/-- Witness of C2: from `/home`, the token `user` with a `stat` that reports a directory;
and from `/home/user`, then from `/usr/`, the token `..`. -/
theorem C2_changeDirectory_commits_iff_directory_witness :
    changeDirectory (fun _ => some S_IFDIR) "/home".toList "user".toList
      = (true, "/home/user".toList)
    ∧ changeDirectory (fun _ => some S_IFDIR) "/home/user".toList "..".toList
      = (true, "/home".toList)
    ∧ newPath "/usr/".toList "..".toList = "/usr".toList :=
  ⟨(C2_changeDirectory_commits_iff_directory (fun _ => some S_IFDIR) "/home".toList
      "user".toList (by decide)).1 (by decide),
   (C2_changeDirectory_commits_iff_directory (fun _ => some S_IFDIR) "/home/user".toList
      "..".toList (by decide)).1 (by decide),
   (C2_changeDirectory_commits_iff_directory (fun _ => some S_IFDIR) "/usr/".toList
      "..".toList (by decide)).2.2.2.2.1 "/usr".toList [] (by decide) (by decide)⟩

/-! ## Claims on the metadata formatter -/

theorem land_two_pow_ne_zero (n i : Nat) : n &&& 2 ^ i ≠ 0 ↔ n.testBit i = true := by
  rw [Nat.and_two_pow]
  cases h : n.testBit i <;> simp

theorem ite_singleton (c : Prop) [Decidable c] (a b : Char) :
    (if c then [a] else [b]) = [if c then a else b] := by
  split <;> rfl

/-- The nine characters of `getPermissions`, one per permission bit. -/
theorem getPermissions_eq (mode : Nat) :
    getPermissions mode =
      [if mode.testBit 8 then 'r' else '-', if mode.testBit 7 then 'w' else '-',
       if mode.testBit 6 then 'x' else '-', if mode.testBit 5 then 'r' else '-',
       if mode.testBit 4 then 'w' else '-', if mode.testBit 3 then 'x' else '-',
       if mode.testBit 2 then 'r' else '-', if mode.testBit 1 then 'w' else '-',
       if mode.testBit 0 then 'x' else '-'] := by
  have h8 := land_two_pow_ne_zero mode 8
  have h7 := land_two_pow_ne_zero mode 7
  have h6 := land_two_pow_ne_zero mode 6
  have h5 := land_two_pow_ne_zero mode 5
  have h4 := land_two_pow_ne_zero mode 4
  have h3 := land_two_pow_ne_zero mode 3
  have h2 := land_two_pow_ne_zero mode 2
  have h1 := land_two_pow_ne_zero mode 1
  have h0 := land_two_pow_ne_zero mode 0
  norm_num at h8 h7 h6 h5 h4 h3 h2 h1 h0
  unfold getPermissions S_IRUSR S_IWUSR S_IXUSR S_IRGRP S_IWGRP S_IXGRP S_IROTH S_IWOTH S_IXOTH
  norm_num [String.toList, ite_singleton, h8, h7, h6, h5, h4, h3, h2, h1, h0]

/-- C4: `getPermissions` returns nine characters; the `i`-th is the `i`-th character of
`rwxrwxrwx` when bit `8 - i` of the mode is set and `-` when it is not; mode 0755 gives
`rwxr-xr-x` and mode 0644 gives `rw-r--r--`. -/
theorem C4_getPermissions_positions (mode : Nat) :
    (getPermissions mode).length = 9
    ∧ (∀ i : Fin 9, (getPermissions mode)[i.val]? =
        some (if mode.testBit (8 - i.val) then "rwxrwxrwx".toList.getD i.val '-' else '-'))
    ∧ getPermissions 0o755 = "rwxr-xr-x".toList
    ∧ getPermissions 0o644 = "rw-r--r--".toList := by
  refine ⟨?_, ?_, by decide, by decide⟩
  · rw [getPermissions_eq]; rfl
  · intro i
    rw [getPermissions_eq]
    fin_cases i <;> rfl

theorem excessBits_small (fuel n : Nat) (h : n < 2 ^ 53) : excessBits fuel n = 0 := by
  cases fuel with
  | zero => rfl
  | succ k =>
    have h' : n < 9007199254740992 := by norm_num at h; exact h
    simp [excessBits, h']

/-- Integers below `2 ^ 53` are `double` values: the conversion is exact. -/
theorem toDouble_exact (n : Nat) (h : n < 2 ^ 53) : toDouble n = n := by
  simp [toDouble, excessBits_small 11 n h, Nat.mod_one]

/-- One more round than `4 - unitIndex` never changes the result of the loop. -/
theorem sizeLoop_succ (fuel : Nat) (fsize : Dyadic) (unitIndex : Nat)
    (h : 4 ≤ fuel + unitIndex) :
    sizeLoop (fuel + 1) fsize unitIndex = sizeLoop fuel fsize unitIndex := by
  induction fuel generalizing fsize unitIndex with
  | zero =>
    have hu : ¬ unitIndex < 4 := by omega
    simp [sizeLoop, hu]
  | succ k ih =>
    have e1 : sizeLoop (k + 1 + 1) fsize unitIndex =
        if ge1024 fsize && decide (unitIndex < 4) then
          sizeLoop (k + 1) (div1024 fsize) (unitIndex + 1)
        else (fsize, unitIndex) := rfl
    have e2 : sizeLoop (k + 1) fsize unitIndex =
        if ge1024 fsize && decide (unitIndex < 4) then
          sizeLoop k (div1024 fsize) (unitIndex + 1)
        else (fsize, unitIndex) := rfl
    rw [e1, e2, ih (div1024 fsize) (unitIndex + 1) (by omega)]

/-- Four rounds are enough for the loop of `formatSize`: any larger bound gives
the same result. -/
theorem sizeLoop_fuel (extra : Nat) (fsize : Dyadic) :
    sizeLoop (4 + extra) fsize 0 = sizeLoop 4 fsize 0 := by
  induction extra with
  | zero => rfl
  | succ k ih => rw [← ih, ← Nat.add_assoc, sizeLoop_succ (4 + k) fsize 0 (by omega)]

/-- The loop of `formatSize` divides `divisions m` times. -/
theorem sizeLoop_divisions (m : Nat) :
    sizeLoop 4 ⟨m, 0⟩ 0 = (⟨m, 10 * divisions m⟩, divisions m) := by
  unfold divisions
  simp only [sizeLoop, ge1024, div1024]
  norm_num
  split_ifs <;> first | rfl | omega

/-- Whatever the size, `formatSize` prints the specified text of the size as converted
to `double`. -/
theorem formatSize_eq_humanSize_toDouble (n : Nat) :
    formatSize n = humanSize (toDouble n) := by
  unfold formatSize humanSize
  rw [sizeLoop_divisions]

/-- C3, as stated, fails: a size of 9007215747415409 bytes is not a `double`; the value
printed is that of the nearest `double`, `8192.01 TB`, while the size divided by
`1024 ^ 4` and written with two fractional digits is `8192.02 TB`. -/
theorem C3_formatSize_counterexample :
    formatSize 9007215747415409 = "8192.01 TB".toList
    ∧ humanSize 9007215747415409 = "8192.02 TB".toList
    ∧ formatSize 9007215747415409 ≠ humanSize 9007215747415409 := by
  decide

/-- C3, amended: `formatSize n` is the value `d / 1024 ^ k` written with two fractional
digits, a space and the `k`-th unit, where `d` is `n` converted to `double` and `k` the
number of divisions; for `n` below `2 ^ 53` the conversion is exact, so the value is
`n / 1024 ^ k` itself; and the five sample sizes print as the specification lists them. -/
theorem C3_formatSize_amended (n : Nat) :
    formatSize n = humanSize (toDouble n)
    ∧ (n < 2 ^ 53 → formatSize n = humanSize n)
    ∧ formatSize 0 = "0.00 B".toList
    ∧ formatSize 1023 = "1023.00 B".toList
    ∧ formatSize 1024 = "1.00 KB".toList
    ∧ formatSize 1536 = "1.50 KB".toList
    ∧ formatSize (1024 * 1024) = "1.00 MB".toList := by
  refine ⟨formatSize_eq_humanSize_toDouble n, ?_, by decide, by decide, by decide, by decide,
    by decide⟩
  intro h
  rw [formatSize_eq_humanSize_toDouble, toDouble_exact n h]

/-- Witness of C3 (amended) at 1536 bytes. -/
theorem C3_formatSize_amended_witness :
    formatSize 1536 = humanSize 1536 ∧ humanSize 1536 = "1.50 KB".toList :=
  ⟨(C3_formatSize_amended 1536).2.1 (by decide), by decide⟩

/-! ## Claims on the recursive search -/

/-- The call `name.find(pattern)` succeeds exactly when `pattern` is a contiguous
part of `name`. -/
theorem find_ne_none_iff (s pattern : Str) : find s pattern ≠ none ↔ pattern <:+: s := by
  induction s with
  | nil =>
    cases pattern with
    | nil => simp [find]
    | cons c p => simp [find, List.isPrefixOf]
  | cons c s ih =>
    rw [List.infix_cons_iff, ← ih]
    have e : find (c :: s) pattern =
        if pattern.isPrefixOf (c :: s) then some 0 else (find s pattern).map (· + 1) := by
      rw [find]
    rw [e]
    by_cases h : pattern.isPrefixOf (c :: s) = true
    · simp [h, List.isPrefixOf_iff_prefix.mp h]
    · have h' : ¬ pattern <+: c :: s := fun e => h (List.isPrefixOf_iff_prefix.mpr e)
      simp [h, h']

theorem matching_append (pattern : Str) (a b : List (Str × Str)) :
    matching pattern (a ++ b) = matching pattern a ++ matching pattern b := by
  simp [matching]

mutual
theorem searchRecursive_spec : ∀ (node : Node) (path pattern : Str) (results : List Str),
    searchRecursive node path pattern results
      = results ++ matching pattern (node.descendants path)
  | .dir entries, path, pattern, results => by
    rw [searchRecursive, Node.descendants, searchEntries_spec entries path pattern results]
  | .closed, _, _, results => by simp [searchRecursive, Node.descendants, matching]
  | .other, _, _, results => by simp [searchRecursive, Node.descendants, matching]
theorem searchEntries_spec : ∀ (entries : Entries) (path pattern : Str) (results : List Str),
    searchEntries entries path pattern results
      = results ++ matching pattern (entries.descendants path)
  | .nil, _, _, results => by simp [searchEntries, Entries.descendants, matching]
  | .cons name node rest, path, pattern, results => by
    rw [searchEntries, Entries.descendants]
    by_cases hdot : name = ".".toList ∨ name = "..".toList
    · rw [if_pos hdot, if_pos hdot, searchEntries_spec rest path pattern results]
    · rw [if_neg hdot, if_neg hdot]
      simp only
      rw [searchEntries_spec rest path pattern]
      have hrec : ∀ rs, (if node.statIsDir = true
            then searchRecursive node (path ++ "/".toList ++ name) pattern rs else rs)
          = rs ++ matching pattern (node.descendants (path ++ "/".toList ++ name)) := by
        intro rs
        cases node with
        | other => simp [Node.statIsDir, Node.descendants, matching]
        | closed => simp [Node.statIsDir, searchRecursive, Node.descendants, matching]
        | dir es =>
          simp only [Node.statIsDir, if_true]
          exact searchRecursive_spec (.dir es) _ pattern rs
      rw [hrec]
      have hm : matching pattern ((name, path ++ "/".toList ++ name)
            :: (node.descendants (path ++ "/".toList ++ name) ++ rest.descendants path))
          = (if find name pattern ≠ none then [path ++ "/".toList ++ name] else [])
            ++ matching pattern (node.descendants (path ++ "/".toList ++ name))
            ++ matching pattern (rest.descendants path) := by
        have hiff := find_ne_none_iff name pattern
        by_cases hi : pattern <:+: name
        · simp [matching, hi, hiff.mpr hi, List.filter_append]
        · have hn : find name pattern = none := by
            by_contra hc
            exact hi (hiff.mp hc)
          simp [matching, hi, hn, List.filter_append]
      rw [hm]
      by_cases hf : find name pattern ≠ none <;> simp [hf]
end

/-- C5: on every finite directory tree and for every pattern, `searchRecursive` appends to
`results` exactly the full paths of the descendants whose name contains the pattern, in
depth-first pre-order (`.` and `..` skipped, nothing from below a directory that cannot
be opened); with the empty pattern it appends the path of every descendant. -/
theorem C5_searchRecursive_preorder (root : Node) (rootPath pattern : Str)
    (results : List Str) :
    searchRecursive root rootPath pattern results
      = results ++ ((root.descendants rootPath).filter
          (fun d => decide (pattern <:+: d.1))).map (fun d => d.2)
    ∧ searchRecursive root rootPath [] results
      = results ++ (root.descendants rootPath).map (fun d => d.2) := by
  refine ⟨searchRecursive_spec root rootPath pattern results, ?_⟩
  rw [searchRecursive_spec]
  simp [matching]

/-! ## Claims on `copy` and `changePermissions` -/

theorem mode_bits_replaced (old new : Nat) :
    ((old &&& S_IFMT) ||| (new &&& 0o7777)) &&& 0o7777 = new &&& 0o7777 := by
  have h : S_IFMT &&& 0o7777 = 0 := by decide
  apply Nat.eq_of_testBit_eq
  intro i
  have hi := congrArg (fun n => Nat.testBit n i) h
  simp only [Nat.testBit_and, Nat.zero_testBit] at hi
  simp only [Nat.testBit_and, Nat.testBit_or]
  cases h1 : old.testBit i <;> cases h2 : S_IFMT.testBit i <;>
    cases h3 : new.testBit i <;> cases h4 : (0o7777 : Nat).testBit i <;> simp_all

theorem copyFile_distinct (fs : FileSystem) (sp dp : Str) (f : File) (hp : sp ≠ dp)
    (hsrc : fs sp = some f) (hread : (f.st_mode &&& S_IRUSR != 0) = true)
    (hdest : fs dp = none
      ∨ ∃ d, fs dp = some d ∧ S_ISREG d.st_mode = true ∧ (d.st_mode &&& S_IWUSR != 0) = true) :
    (copyFile fs sp dp).1 = true
    ∧ ∃ d, (copyFile fs sp dp).2 dp = some d
        ∧ d.content = f.content ∧ d.st_mode &&& 0o7777 = f.st_mode &&& 0o7777 := by
  rcases hdest with hd | ⟨d, hd, hdreg, hdw⟩
  · simp [copyFile, FileSystem.stat, openRead, openWrite, streamCopy, chmod,
      FileSystem.set, hsrc, hd, hread, hp, hp.symm, mode_bits_replaced]
  · simp [copyFile, FileSystem.stat, openRead, openWrite, streamCopy, chmod,
      FileSystem.set, hsrc, hd, hread, hp, hp.symm, hdreg, hdw, mode_bits_replaced]

/-- Between two different names the copy is what the specification says: when the source
is a readable regular file and the destination is missing or a writable regular file,
`copy` returns true, and the destination then holds the bytes of the source and its
twelve mode bits. -/
theorem copy_distinct_names (fs : FileSystem) (cur src dest : Str) (f : File)
    (hsd : src ≠ dest)
    (hsrc : fs (cur ++ "/".toList ++ src) = some f)
    (hreg : S_ISREG f.st_mode = true) (hread : (f.st_mode &&& S_IRUSR != 0) = true)
    (hdest : fs (cur ++ "/".toList ++ dest) = none
      ∨ ∃ d, fs (cur ++ "/".toList ++ dest) = some d ∧ S_ISREG d.st_mode = true
          ∧ (d.st_mode &&& S_IWUSR != 0) = true) :
    (copy fs cur src dest).1 = true
    ∧ ∃ d, (copy fs cur src dest).2 (cur ++ "/".toList ++ dest) = some d
        ∧ d.content = f.content ∧ d.st_mode &&& 0o7777 = f.st_mode &&& 0o7777 := by
  have hp : cur ++ "/".toList ++ src ≠ cur ++ "/".toList ++ dest := by
    intro e
    exact hsd (List.append_cancel_left e)
  obtain ⟨h1, h2⟩ := copyFile_distinct fs _ _ f hp hsrc hread hdest
  have hstat : fs.stat (cur ++ "/".toList ++ src) = some f.st_mode := by
    unfold FileSystem.stat
    rw [hsrc]
    rfl
  unfold copy
  simp only
  rw [hstat]
  simp only [hreg, Bool.not_true, Bool.false_eq_true, if_false, h1, if_true]
  exact ⟨trivial, h2⟩

/-- C6 at the failing input: in the directory `/d`, whose file `a` holds two bytes,
`copy("a", "a")` returns true, and afterwards the file is empty, its mode unchanged. -/
theorem C6_copy_onto_itself_truncates :
    (sampleFiles "/d/a".toList) = some ⟨S_IFREG ||| 0o644, [104, 105]⟩
    ∧ (copy sampleFiles "/d".toList "a".toList "a".toList).1 = true
    ∧ (copy sampleFiles "/d".toList "a".toList "a".toList).2 "/d/a".toList
        = some ⟨S_IFREG ||| 0o644, []⟩ := by
  decide

/-- C7: when the permission string does not have exactly 3 characters, `changePermissions`
returns false and leaves the system state as it was, whatever the `chmod` primitive would
do: the primitive is not invoked. -/
theorem C7_changePermissions_rejects_wrong_length {σ : Type}
    (chmod : Str → Nat → σ → Bool × σ) (currentPath name perms : Str) (sys : σ)
    (h : perms.length ≠ 3) :
    changePermissions chmod currentPath name perms sys = (false, sys) := by
  unfold changePermissions
  simp [h]

/-- Witness of C7: with the permission string `7555` no call reaches the recording
`chmod`. -/
theorem C7_changePermissions_rejects_wrong_length_witness :
    changePermissions recordChmod "/d".toList "a".toList "7555".toList [] = (false, []) :=
  C7_changePermissions_rejects_wrong_length recordChmod "/d".toList "a".toList
    "7555".toList [] (by decide)

/-- C8 at the failing input: the 3-character string `-01` is accepted, and the mode
passed to `chmod` is 4294967295, above 0777; on the file `/d/a` it leaves the
set-user-ID, set-group-ID and sticky bits set (mode 07777). -/
theorem C8_changePermissions_negative_mode :
    changePermissions recordChmod "/d".toList "a".toList "-01".toList []
      = (true, [("/d/a".toList, 4294967295)])
    ∧ ¬ (4294967295 ≤ 0o777)
    ∧ (changePermissions chmod "/d".toList "a".toList "-01".toList sampleFiles).2
        "/d/a".toList = some ⟨S_IFREG ||| 0o7777, [104, 105]⟩ := by
  decide

/-! ## The session invariant -/

theorem normalized_absolute (p : Str) (h : Normalized p) : Absolute p := by
  obtain ⟨segs, _, rfl⟩ := h
  cases segs with
  | nil => exact ⟨[], rfl⟩
  | cons s rest => exact ⟨s ++ rest.flatMap (fun s => '/' :: s), by simp [pathOf]⟩

/-- After the leading slash of a normalized path comes nothing or a character other than
a slash. -/
theorem normalized_second (p : Str) (h : Normalized p) :
    p = "/".toList ∨ ∃ c rest, p = '/' :: c :: rest ∧ c ≠ '/' := by
  obtain ⟨segs, hv, rfl⟩ := h
  cases segs with
  | nil => exact Or.inl rfl
  | cons s rest =>
    right
    have hs := hv s (by simp)
    obtain ⟨hne, hslash, _, _⟩ := hs
    cases s with
    | nil => exact absurd rfl hne
    | cons c s' =>
      refine ⟨c, s' ++ rest.flatMap (fun s => '/' :: s), by simp [pathOf], ?_⟩
      intro e
      exact hslash (by simp [e])

theorem absolute_newPath (cur path : Str) (h : Absolute cur) : Absolute (newPath cur path) := by
  obtain ⟨rest, rfl⟩ := h
  unfold newPath
  split
  · split
    · rename_i pos _
      split
      · rename_i hpos
        obtain ⟨k, rfl⟩ := Nat.exists_eq_succ_of_ne_zero hpos
        exact ⟨rest.take k, by simp [substr]⟩
      · exact ⟨[], rfl⟩
    · exact ⟨[], rfl⟩
  · split
    · rename_i hf
      cases path with
      | nil => simp [front] at hf
      | cons c r =>
        simp only [front, List.headD_cons] at hf
        exact ⟨r, by rw [hf]⟩
    · exact ⟨rest ++ "/".toList ++ path, by simp⟩

theorem changeDirectory_snd (stat : Str → Option Nat) (cur path : Str) :
    (changeDirectory stat cur path).2 = newPath cur path
    ∨ (changeDirectory stat cur path).2 = cur := by
  unfold changeDirectory
  cases stat (newPath cur path) with
  | none => exact Or.inr rfl
  | some m => by_cases hm : S_ISDIR m = true <;> simp [hm]

theorem absolute_changeDirectory (stat : Str → Option Nat) (cur path : Str)
    (h : Absolute cur) : Absolute (changeDirectory stat cur path).2 := by
  rcases changeDirectory_snd stat cur path with e | e <;> rw [e]
  · exact absolute_newPath cur path h
  · exact h

theorem absolute_session (calls : List ((Str → Option Nat) × Str)) (cur : Str)
    (h : Absolute cur) : Absolute (session calls cur) := by
  induction calls generalizing cur with
  | nil => exact h
  | cons call rest ih =>
    exact ih _ (absolute_changeDirectory call.1 cur call.2 h)

/-- The resolved path is normalized when the current path is and the token is `..`, a
normalized absolute path, or a single segment applied below the root. -/
theorem normalized_newPath (cur path : Str) (h : Normalized cur)
    (ht : path = "..".toList ∨ Normalized path ∨ (cur ≠ "/".toList ∧ ValidSegment path)) :
    Normalized (newPath cur path) := by
  rcases ht with rfl | hn | ⟨hroot, hseg⟩
  · obtain ⟨segs, hv, rfl⟩ := h
    rw [newPath_dotdot_pathOf segs (fun s hs => (hv s hs).2.1)]
    exact ⟨segs.dropLast, fun s hs => hv s (List.mem_of_mem_dropLast hs), rfl⟩
  · obtain ⟨rest, hrest⟩ := normalized_absolute path hn
    have h1 : path ≠ "..".toList := by
      rw [hrest]
      intro e
      have e' : "..".toList = '.' :: ".".toList := rfl
      rw [e'] at e
      simp only [List.cons.injEq] at e
      exact absurd e.1 (by decide)
    have h2 : front path = '/' := by rw [hrest]; rfl
    unfold newPath
    rw [if_neg h1, if_pos h2]
    exact hn
  · obtain ⟨segs, hv, rfl⟩ := h
    obtain ⟨hne, hslash, _, hdd⟩ := hseg
    have hsegs : segs ≠ [] := by
      intro e
      exact hroot (by rw [e]; rfl)
    have h2 : front path ≠ '/' := by
      cases path with
      | nil => exact absurd rfl hne
      | cons c r =>
        intro e
        simp only [front, List.headD_cons] at e
        exact hslash (by simp [e])
    unfold newPath
    rw [if_neg hdd, if_neg h2]
    refine ⟨segs ++ [path], ?_, ?_⟩
    · intro s hs
      rcases List.mem_append.mp hs with h' | h'
      · exact hv s h'
      · rw [List.mem_singleton.mp h']
        exact ⟨hne, hslash, by assumption, hdd⟩
    · have hne2 : segs ++ [path] ≠ [] := by simp
      rw [pathOf, if_neg hsegs, pathOf, if_neg hne2, flatMap_concat]
      simp

/-- C9, as stated, fails: on a tree with the directory `/usr`, the call
`changeDirectory("usr")` from the normalized path `/` succeeds and leaves `currentPath`
at `//usr`, which is not normalized; the token `/usr/` leaves a trailing slash. -/
theorem C9_session_counterexample :
    Normalized "/".toList
    ∧ session [(treeStat sampleTree, "usr".toList)] "/".toList = "//usr".toList
    ∧ ¬ Normalized "//usr".toList
    ∧ session [(treeStat sampleTree, "/usr/".toList)] "/".toList = "/usr/".toList := by
  refine ⟨⟨[], by simp, rfl⟩, by decide, ?_, by decide⟩
  intro h
  rcases normalized_second _ h with e | ⟨c, rest, e, hc⟩
  · exact absurd e (by decide)
  · have e' : "//usr".toList = '/' :: '/' :: "usr".toList := rfl
    rw [e'] at e
    simp only [List.cons.injEq, true_and] at e
    exact hc e.1.symm

/-- C9, amended: starting from a normalized `currentPath`, after every sequence of
`changeDirectory` calls `currentPath` is absolute (it begins with `/`); and one call
leaves it normalized when its token is `..`, a normalized absolute path, or a single
valid segment applied while `currentPath` is not the root. -/
theorem C9_session_stays_absolute (calls : List ((Str → Option Nat) × Str))
    (currentPath : Str) (h : Normalized currentPath) :
    Absolute (session calls currentPath)
    ∧ ∀ (stat : Str → Option Nat) (path : Str),
        (path = "..".toList ∨ Normalized path
          ∨ (currentPath ≠ "/".toList ∧ ValidSegment path)) →
        Normalized (changeDirectory stat currentPath path).2 := by
  refine ⟨absolute_session calls currentPath (normalized_absolute currentPath h), ?_⟩
  intro stat path ht
  rcases changeDirectory_snd stat currentPath path with e | e <;> rw [e]
  · exact normalized_newPath currentPath path h ht
  · exact h

/-- Witness of C9 (amended): three calls from the root on the sample tree. -/
theorem C9_session_stays_absolute_witness :
    Absolute (session [(treeStat sampleTree, "usr".toList), (treeStat sampleTree, "bin".toList),
      (treeStat sampleTree, "..".toList)] "/".toList) :=
  (C9_session_stays_absolute [(treeStat sampleTree, "usr".toList),
    (treeStat sampleTree, "bin".toList), (treeStat sampleTree, "..".toList)] "/".toList
    ⟨[], by simp, rfl⟩).1

/-! ## Claims on `listFiles` -/

/-- The loop of `listFiles(false)` appends to `files` and `dirs` the names it collects,
in enumeration order. -/
theorem listLoop_eq (stat : Str → Option Nat) (cur : Str) (entries files dirs : List Str) :
    listLoop stat cur entries (files, dirs)
      = (files ++ entries.filter (listedAsFile stat cur),
         dirs ++ entries.filter (listedAsDir stat cur)) := by
  induction entries generalizing files dirs with
  | nil => simp [listLoop]
  | cons name rest ih =>
    rw [listLoop]
    by_cases hdot : name = ".".toList
    · have hF : listedAsFile stat cur name = false := by simp [listedAsFile, hdot]
      have hD : listedAsDir stat cur name = false := by simp [listedAsDir, hdot]
      rw [if_pos hdot, ih]
      simp [List.filter_cons, hF, hD]
    · have hdot' : ¬ name = ['.'] := hdot
      rw [if_neg hdot]
      simp only
      cases hs : stat (cur ++ "/".toList ++ name) with
      | none =>
        have hF : listedAsFile stat cur name = false := by
          unfold listedAsFile isDirectory
          rw [hs]
          simp
        have hD : listedAsDir stat cur name = false := by
          unfold listedAsDir isDirectory
          rw [hs]
          simp
        simp only
        rw [ih]
        simp [List.filter_cons, hF, hD]
      | some m =>
        simp only
        by_cases hm : S_ISDIR m = true
        · have hF : listedAsFile stat cur name = false := by
            unfold listedAsFile isDirectory
            rw [hs]
            simp [hm, hdot']
          have hD : listedAsDir stat cur name = true := by
            unfold listedAsDir isDirectory
            rw [hs]
            simp [hm, hdot']
          rw [if_pos hm, ih]
          simp [List.filter_cons, hF, hD]
        · have hF : listedAsFile stat cur name = true := by
            unfold listedAsFile isDirectory
            rw [hs]
            simp [hm, hdot']
          have hD : listedAsDir stat cur name = false := by
            unfold listedAsDir isDirectory
            rw [hs]
            simp [hm, hdot']
          rw [if_neg hm, ih]
          simp [List.filter_cons, hF, hD]

theorem sort_sorted (v : List Str) : (sort v).Sorted (fun a b => a ≤ b) :=
  List.sorted_insertionSort (fun a b => a ≤ b) v

theorem sort_perm (v : List Str) : (sort v).Perm v :=
  List.perm_insertionSort (fun a b => a ≤ b) v

/-- C10, as stated, fails: in `/usr` of the sample tree, whose entries are `.`, `..`,
`readme` and `bin`, the listing puts `..` among the directories. -/
theorem C10_listFiles_counterexample :
    treeOpendir sampleTree "/usr".toList
      = some [".".toList, "..".toList, "readme".toList, "bin".toList]
    ∧ listFiles (treeOpendir sampleTree) (treeStat sampleTree) "/usr".toList
      = some (["..".toList, "bin".toList], ["readme".toList])
    ∧ "..".toList ∈ ["..".toList, "bin".toList] := by
  decide

/-- C10, amended: when the current directory can be opened, `listFiles(false)` produces two
groups, directories first and then non-directories, each sorted lexicographically, which
hold exactly the names of the entries other than `.` on which `stat` succeeds, a
directory in the first group and anything else in the second; `..` is among them. -/
theorem C10_listFiles_groups (opendir : Str → Option (List Str)) (stat : Str → Option Nat)
    (currentPath : Str) (entries : List Str) (h : opendir currentPath = some entries) :
    ∃ dirs files, listFiles opendir stat currentPath = some (dirs, files)
      ∧ dirs.Sorted (fun a b => a ≤ b)
      ∧ files.Sorted (fun a b => a ≤ b)
      ∧ dirs.Perm (entries.filter (fun name =>
          name ≠ ".".toList && isDirectory stat (currentPath ++ "/".toList ++ name)))
      ∧ files.Perm (entries.filter (fun name =>
          name ≠ ".".toList && (stat (currentPath ++ "/".toList ++ name)).isSome
            && !isDirectory stat (currentPath ++ "/".toList ++ name))) := by
  refine ⟨sort (entries.filter (listedAsDir stat currentPath)),
    sort (entries.filter (listedAsFile stat currentPath)), ?_, sort_sorted _, sort_sorted _,
    sort_perm _, sort_perm _⟩
  unfold listFiles
  rw [h]
  simp only
  rw [listLoop_eq]
  simp

/-- Witness of C10 (amended): the listing of `/usr` in the sample tree. -/
theorem C10_listFiles_groups_witness :
    ∃ dirs files,
      listFiles (treeOpendir sampleTree) (treeStat sampleTree) "/usr".toList = some (dirs, files)
      ∧ dirs.Sorted (fun a b => a ≤ b)
      ∧ files.Sorted (fun a b => a ≤ b)
      ∧ dirs.Perm ([".".toList, "..".toList, "readme".toList, "bin".toList].filter (fun name =>
          name ≠ ".".toList && isDirectory (treeStat sampleTree) ("/usr".toList ++ "/".toList ++ name)))
      ∧ files.Perm ([".".toList, "..".toList, "readme".toList, "bin".toList].filter (fun name =>
          name ≠ ".".toList && (treeStat sampleTree ("/usr".toList ++ "/".toList ++ name)).isSome
            && !isDirectory (treeStat sampleTree) ("/usr".toList ++ "/".toList ++ name))) :=
  C10_listFiles_groups (treeOpendir sampleTree) (treeStat sampleTree) "/usr".toList
    [".".toList, "..".toList, "readme".toList, "bin".toList] (by decide)

/-! ## Octal triplets through `changePermissions` and `getPermissions` -/

/-- The mode `changePermissions` computes from three octal digits. -/
theorem mode_of_octalTriplet (a b c : Fin 8) :
    mode_t (strtol (c_str (octalTriplet a.val b.val c.val)) 8)
      = 64 * a.val + 8 * b.val + c.val := by
  fin_cases a <;> fin_cases b <;> fin_cases c <;> decide

/-- The permission string of the mode of three octal digits. -/
theorem getPermissions_of_digits (a b c : Fin 8) :
    getPermissions (64 * a.val + 8 * b.val + c.val) = rwx a.val ++ rwx b.val ++ rwx c.val := by
  fin_cases a <;> fin_cases b <;> fin_cases c <;> decide

theorem rwx_injective (d e : Fin 8) (h : rwx d.val = rwx e.val) : d = e := by
  revert h
  fin_cases d <;> fin_cases e <;> decide

theorem rwx_length (d : Nat) : (rwx d).length = 3 := rfl

theorem rwx_append_injective (a b c a' b' c' : Fin 8)
    (h : rwx a.val ++ rwx b.val ++ rwx c.val = rwx a'.val ++ rwx b'.val ++ rwx c'.val) :
    a = a' ∧ b = b' ∧ c = c' := by
  rw [List.append_assoc, List.append_assoc] at h
  have h1 := List.append_inj h (by rw [rwx_length, rwx_length])
  have h2 := List.append_inj h1.2 (by rw [rwx_length, rwx_length])
  exact ⟨rwx_injective a a' h1.1, rwx_injective b b' h2.1, rwx_injective c c' h2.2⟩

/-- C11: for three octal digits `a`, `b`, `c`, `changePermissions` on the string `abc`
calls `chmod` with the mode `64 * a + 8 * b + c` (and returns what `chmod` answers);
`getPermissions` of that mode is the rendering of `a`, then of `b`, then of `c`; and two
different triplets give two different permission strings. -/
theorem C11_octal_triplet_mode_and_string {σ : Type} (chmod : Str → Nat → σ → Bool × σ)
    (currentPath name : Str) (sys : σ) (a b c : Fin 8) :
    changePermissions chmod currentPath name (octalTriplet a.val b.val c.val) sys
      = chmod (currentPath ++ "/".toList ++ name) (64 * a.val + 8 * b.val + c.val) sys
    ∧ changePermissions recordChmod currentPath name (octalTriplet a.val b.val c.val) []
      = (true, [(currentPath ++ "/".toList ++ name, 64 * a.val + 8 * b.val + c.val)])
    ∧ getPermissions (64 * a.val + 8 * b.val + c.val)
      = rwx a.val ++ rwx b.val ++ rwx c.val
    ∧ ∀ a' b' c' : Fin 8, (a, b, c) ≠ (a', b', c') →
        getPermissions (64 * a.val + 8 * b.val + c.val)
          ≠ getPermissions (64 * a'.val + 8 * b'.val + c'.val) := by
  have hlen : (octalTriplet a.val b.val c.val).length = 3 := rfl
  have hmode := mode_of_octalTriplet a b c
  have hgen : ∀ (τ : Type) (ch : Str → Nat → τ → Bool × τ) (s : τ),
      changePermissions ch currentPath name (octalTriplet a.val b.val c.val) s
        = ch (currentPath ++ "/".toList ++ name) (64 * a.val + 8 * b.val + c.val) s := by
    intro τ ch s
    unfold changePermissions
    rw [if_pos hlen]
    simp only
    rw [hmode]
    cases h : (ch (currentPath ++ "/".toList ++ name) (64 * a.val + 8 * b.val + c.val) s).1
    · simp only [Bool.false_eq_true, if_false]
      rw [← h]
    · simp only [if_true]
      rw [← h]
  refine ⟨hgen σ chmod sys, ?_, getPermissions_of_digits a b c, ?_⟩
  · rw [hgen]
    rfl
  · intro a' b' c' hne heq
    rw [getPermissions_of_digits, getPermissions_of_digits] at heq
    obtain ⟨h1, h2, h3⟩ := rwx_append_injective a b c a' b' c' heq
    exact hne (by rw [h1, h2, h3])

/-- Witness of C11: the strings `755` and `644` give the modes 0755 and 0644, whose
permission strings differ. -/
theorem C11_octal_triplet_mode_and_string_witness :
    changePermissions recordChmod "/d".toList "a".toList "755".toList []
      = (true, [("/d/a".toList, 0o755)])
    ∧ getPermissions 0o755 ≠ getPermissions 0o644 :=
  ⟨(C11_octal_triplet_mode_and_string recordChmod "/d".toList "a".toList [] 7 5 5).2.1,
   (C11_octal_triplet_mode_and_string recordChmod "/d".toList "a".toList [] 7 5 5).2.2.2
     6 4 4 (by decide)⟩

end FileExplorer
